import Mathlib

set_option maxRecDepth 8000
set_option maxHeartbeats 4000000

/-
Shallow embedding of src/src/regex.cpp: a recursive-descent regex parser
(Parser), a Thompson-construction compiler (NFACompiler) and a frontier-set
stepping engine (NFAEngine).  Pattern and subject strings are modelled as
lists of byte values (the C code works on NUL-terminated byte strings; a
read of the terminator or of memory past it is modelled as the byte 0).
Loops and recursions of the C code that are not structurally terminating
(the parser's mutual recursion through groups, the compiler's recursion
over the node arena, the engine's while loops, whose C counterparts can
genuinely diverge) take an explicit fuel argument; running out of fuel
returns a failure value (none / false).  Out-of-bounds arena accesses and
pops of an empty fragment stack, which are undefined behaviour in C++,
are modelled as failure (none) in the compiler.
-/

namespace Regex

/-- Node of the parse-tree arena (struct Node in regex.cpp): closed tagged
variant; combinator variants store operand indices into the owning arena,
an atom stores one character code. -/
inductive Node where
  | alternation (first second : Nat)
  | concatenation (first second : Nat)
  | repetition (first : Nat)
  | optionalRepetition (first : Nat)
  | optional (first : Nat)
  | atom (c : Nat)
deriving DecidableEq, Repr

instance : Inhabited Node := ⟨Node.atom 0⟩

/-- ParseTree (regex.cpp): flag bit 1 = begin-anchored, bit 2 = end-anchored,
plus the append-only node arena. -/
structure ParseTree where
  flags : Nat
  nodes : List Node
deriving DecidableEq, Repr

/-- Parser state: the input bytes, the read position (the C code's pointer),
and the ParseTree being built (flags and node arena). -/
structure PState where
  input : List Nat
  pos : Nat
  flags : Nat
  nodes : List Node
deriving DecidableEq, Repr

/-- Dereference the parse pointer; reading the NUL terminator or past it
yields 0. -/
def peek (st : PState) : Nat := st.input.getD st.pos 0

def advance (st : PState) : PState := {st with pos := st.pos + 1}

def pushNode (st : PState) (n : Node) : PState := {st with nodes := st.nodes ++ [n]}

/-- Characters accepted as atoms by Parser::parse_unit:
isalpha(tolower(c)) or isdigit(c) or underscore, i.e. a-z, A-Z, 0-9, _. -/
def isAtomChar (c : Nat) : Bool :=
  (97 ≤ c && c ≤ 122) || (65 ≤ c && c ≤ 90) || (48 ≤ c && c ≤ 57) || c == 95

/-- Selector for the mutually recursive parse functions of struct Parser.
altLoop and concatLoop are the while loops inside parse_alternation and
parse_concatenation; their argument is the local variable `first`. -/
inductive PMode where
  | alternation
  | altLoop (first : Nat)
  | concat
  | concatLoop (first : Nat)
  | quantifier
  | unit
  | group
deriving DecidableEq, Repr

/-- The parser's mutually recursive functions (parse_alternation,
parse_concatenation, parse_quantifier, parse_unit, parse_group of
regex.cpp), merged into one fuel-indexed function so that every recursive
call decreases the fuel.  Returns the C functions' bool together with the
state (pointer position and arena) exactly as the C code leaves it, also
on failure. -/
def runP : Nat → PMode → PState → Bool × PState
  | 0, _, st => (false, st)
  | f+1, PMode.alternation, st =>
      let r := runP f PMode.concat st
      if r.1 then runP f (PMode.altLoop (r.2.nodes.length - 1)) r.2 else (false, r.2)
  | f+1, PMode.altLoop first, st =>
      if peek st == 124 then
        let r := runP f PMode.concat (advance st)
        if r.1 then
          let second := r.2.nodes.length - 1
          let st3 := pushNode r.2 (Node.alternation first second)
          runP f (PMode.altLoop (st3.nodes.length - 1)) st3
        else (false, r.2)
      else (true, st)
  | f+1, PMode.concat, st =>
      let r := runP f PMode.quantifier st
      if r.1 then runP f (PMode.concatLoop (r.2.nodes.length - 1)) r.2 else (false, r.2)
  | f+1, PMode.concatLoop first, st =>
      let r := runP f PMode.quantifier st
      if r.1 then
        let second := r.2.nodes.length - 1
        let st3 := pushNode r.2 (Node.concatenation first second)
        runP f (PMode.concatLoop (st3.nodes.length - 1)) st3
      else (true, r.2)
  | f+1, PMode.quantifier, st =>
      let r := runP f PMode.unit st
      if r.1 then
        let first := r.2.nodes.length - 1
        if peek r.2 == 63 then (true, pushNode (advance r.2) (Node.optional first))
        else if peek r.2 == 42 then (true, pushNode (advance r.2) (Node.optionalRepetition first))
        else if peek r.2 == 43 then (true, pushNode (advance r.2) (Node.repetition first))
        else (true, r.2)
      else (false, r.2)
  | f+1, PMode.unit, st =>
      if isAtomChar (peek st) then (true, pushNode (advance st) (Node.atom (peek st)))
      else if peek st == 40 then runP f PMode.group st
      else (false, st)
  | f+1, PMode.group, st =>
      if peek st == 40 then
        let r := runP f PMode.alternation (advance st)
        if r.1 then
          if peek r.2 == 41 then (true, advance r.2) else (false, r.2)
        else (false, r.2)
      else (false, st)

/-- Parser::parse, which just calls parse_alternation. -/
def parse (f : Nat) (st : PState) : Bool × PState := runP f PMode.alternation st

/-- The while loop of Parser::build_parse_tree: stop with success at the
terminator; a dollar sign is consumed, sets the end-anchored flag and stops
parsing immediately; otherwise run parse() and fail if it fails. -/
def buildLoop : Nat → PState → Bool × PState
  | 0, st => (false, st)
  | f+1, st =>
      if peek st == 0 then (true, st)
      else if peek st == 36 then (true, {advance st with flags := st.flags ||| 2})
      else
        let r := parse f st
        if r.1 then buildLoop f r.2 else (false, r.2)

/-- Parser::build_parse_tree: an optional leading caret sets the
begin-anchored flag, then the main loop runs. -/
def build_parse_tree (f : Nat) (st : PState) : Bool × PState :=
  let st1 := if peek st == 94 then {advance st with flags := st.flags ||| 1} else st
  buildLoop f st1

def initP (input : List Nat) : PState := ⟨input, 0, 0, []⟩

/-- Fuel that is ample for every pattern length (each parser call consumes
at most a constant amount of input per unit of fuel). -/
def parseFuel (input : List Nat) : Nat := 8 * input.length + 16

/-- Whole-parser wrapper: parse a pattern and return (success, ParseTree),
as the pair (Parser::build_parse_tree result, the tree it populated). -/
def parseR (input : List Nat) : Bool × ParseTree :=
  let r := build_parse_tree (parseFuel input) (initP input)
  (r.1, ⟨r.2.flags, r.2.nodes⟩)

/-- NFA::Transition: a symbol (0..255 a byte, -1 the empty/epsilon symbol)
with its ordered list of destination state indices. -/
structure Transition where
  symbol : Int
  futures : List Nat
deriving DecidableEq, Repr

/-- NFA::State: the transient last-execution stamp, the flags word (bit 1 =
ACCEPTING) and the transition list.  The never-read global id counter of
the C code is omitted. -/
structure State where
  last_exec : Nat
  flags : Nat
  transitions : List Transition
deriving DecidableEq, Repr

instance : Inhabited State := ⟨⟨0, 0, []⟩⟩

/-- NFA::State::find, searching the transition list for a symbol. -/
def findT : List Transition → Int → Option Transition
  | [], _ => none
  | t :: ts, sym => if t.symbol = sym then some t else findT ts sym

def State.find (s : State) (sym : Int) : Option Transition := findT s.transitions sym

/-- NFA::State::get(sym).futures.push_back(dst): append dst to the futures
of the first transition carrying sym, creating the transition at the end of
the list when none exists yet. -/
def addF : List Transition → Int → Nat → List Transition
  | [], sym, dst => [⟨sym, [dst]⟩]
  | t :: ts, sym, dst =>
      if t.symbol = sym then ⟨t.symbol, t.futures ++ [dst]⟩ :: ts else t :: addF ts sym dst

/-- NFA: the state arena and the start state index. -/
structure NFA where
  states : List State
  start_state : Nat
deriving DecidableEq, Repr

instance : Inhabited NFA := ⟨⟨[], 0⟩⟩

/-- machine.states[st].get(sym).futures.push_back(dst). -/
def addFutureM (m : NFA) (st : Nat) (sym : Int) (dst : Nat) : NFA :=
  let s := m.states.getD st default
  let s2 : State := {s with transitions := addF s.transitions sym dst}
  {m with states := m.states.set st s2}

/-- machine.states.emplace_back(): append a fresh default state. -/
def pushState (m : NFA) : NFA := {m with states := m.states ++ [default]}

/-- NFACompiler::NodeData: a fragment's start and accept state indices. -/
structure NodeData where
  start_state : Nat
  accept_state : Nat
deriving DecidableEq, Repr

/-- The OPTIONAL_REPETITION case of NFACompiler::emit_node: push the two
fresh fragment states, wire start epsilon to the child start and to the
fragment accept, and wire the child accept epsilon back to the fragment
start (and to nothing else). -/
def emitOptRep (m : NFA) (child : NodeData) : NFA × NodeData :=
  let s := m.states.length
  let m1 := pushState m
  let a := m1.states.length
  let m2 := pushState m1
  let m3 := addFutureM m2 s (-1) child.start_state
  let m4 := addFutureM m3 s (-1) a
  let m5 := addFutureM m4 child.accept_state (-1) s
  (m5, ⟨s, a⟩)

/-- NFACompiler::emit_node: recursively lower the arena node at the given
index, threading the machine and the fragment stack (top of stack = list
head).  Out-of-bounds arena access or popping an empty fragment stack, both
undefined behaviour in the C code, yield none, as does fuel exhaustion
(the C recursion does not terminate on a malformed arena). -/
def emit_node (nodes : List Node) : Nat → Nat → NFA → List NodeData → Option (NFA × List NodeData)
  | 0, _, _, _ => none
  | f+1, node, m, stack =>
    match nodes[node]? with
    | none => none
    | some (Node.alternation i j) =>
        match emit_node nodes f i m stack with
        | none => none
        | some (m1, stack1) =>
          match emit_node nodes f j m1 stack1 with
          | none => none
          | some (m2, stack2) =>
            match stack2 with
            | right :: left :: rest =>
                let s := m2.states.length
                let m3 := pushState m2
                let m4 := addFutureM m3 s (-1) left.start_state
                let m5 := addFutureM m4 s (-1) right.start_state
                let a := m5.states.length
                let m6 := pushState m5
                let m7 := addFutureM m6 left.accept_state (-1) a
                let m8 := addFutureM m7 right.accept_state (-1) a
                some (m8, ⟨s, a⟩ :: rest)
            | _ => none
    | some (Node.concatenation i j) =>
        match emit_node nodes f i m stack with
        | none => none
        | some (m1, stack1) =>
          match emit_node nodes f j m1 stack1 with
          | none => none
          | some (m2, stack2) =>
            match stack2 with
            | right :: left :: rest =>
                let s := m2.states.length
                let m3 := pushState m2
                let m4 := addFutureM m3 s (-1) left.start_state
                let a := m4.states.length
                let m5 := pushState m4
                let m6 := addFutureM m5 left.accept_state (-1) right.start_state
                let m7 := addFutureM m6 right.accept_state (-1) a
                some (m7, ⟨s, a⟩ :: rest)
            | _ => none
    | some (Node.repetition i) =>
        match emit_node nodes f i m stack with
        | none => none
        | some (m1, stack1) =>
          match stack1 with
          | child :: rest =>
              let s := m1.states.length
              let m2 := pushState m1
              let a := m2.states.length
              let m3 := pushState m2
              let m4 := addFutureM m3 s (-1) child.start_state
              let m5 := addFutureM m4 child.accept_state (-1) child.start_state
              let m6 := addFutureM m5 child.accept_state (-1) a
              some (m6, ⟨s, a⟩ :: rest)
          | _ => none
    | some (Node.optionalRepetition i) =>
        match emit_node nodes f i m stack with
        | none => none
        | some (m1, stack1) =>
          match stack1 with
          | child :: rest =>
              let r := emitOptRep m1 child
              some (r.1, r.2 :: rest)
          | _ => none
    | some (Node.optional i) =>
        match emit_node nodes f i m stack with
        | none => none
        | some (m1, stack1) =>
          match stack1 with
          | child :: rest =>
              let s := m1.states.length
              let m2 := pushState m1
              let a := m2.states.length
              let m3 := pushState m2
              let m4 := addFutureM m3 s (-1) child.start_state
              let m5 := addFutureM m4 s (-1) a
              let m6 := addFutureM m5 child.accept_state (-1) a
              some (m6, ⟨s, a⟩ :: rest)
          | _ => none
    | some (Node.atom c) =>
        let s := m.states.length
        let m1 := pushState m
        let a := m1.states.length
        let m2 := pushState m1
        let m3 := addFutureM m2 s (Int.ofNat c) a
        some (m3, ⟨s, a⟩ :: stack)

/-- The compiler's scan-state loop: a self-loop transition on each of the
256 byte values. -/
def scanLoop (m : NFA) (s : Nat) : NFA :=
  (List.range 256).foldl (fun mm i => addFutureM mm s (Int.ofNat i) s) m

/-- NFACompiler::compile_tree: emit the node with the highest arena index,
pop the resulting fragment; when not begin-anchored synthesize the scan
state (self-loop on all 256 bytes plus an epsilon edge into the fragment
start) as automaton start; append the dedicated accepting state; connect
the fragment accept to it by epsilon when not end-anchored, and by the
sentinel symbol 0 when end-anchored. -/
def compile_tree (tree : ParseTree) : Option NFA :=
  match emit_node tree.nodes (tree.nodes.length + 1) (tree.nodes.length - 1) ⟨[], 0⟩ [] with
  | none => none
  | some (m0, stack) =>
    match stack with
    | last :: _ =>
      let p :=
        if tree.flags &&& 1 = 0 then
          let s := m0.states.length
          let m1 := pushState m0
          let m2 := scanLoop m1 s
          let m3 := addFutureM m2 s (-1) last.start_state
          (m3, s)
        else (m0, last.start_state)
      let m4 : NFA := {p.1 with start_state := p.2}
      let a := m4.states.length
      let m5 : NFA := {m4 with states := m4.states ++ [⟨0, 1, []⟩]}
      if tree.flags &&& 2 = 0 then some (addFutureM m5 last.accept_state (-1) a)
      else some (addFutureM m5 last.accept_state 0 a)
    | [] => none

/-- The engine's mutable state (the fields of struct NFAEngine): the machine
(whose per-state stamps the engine mutates in place), the step counter, the
current and next frontier vectors, and the input pointer as an offset. -/
structure EngineState where
  machine : NFA
  counter : Nat
  cur : List Nat
  next : List Nat
  pos : Nat
deriving DecidableEq, Repr

/-- Byte read at an offset of the subject; the NUL terminator and memory
past it are modelled as 0. -/
def byteAt (text : List Nat) (p : Nat) : Nat := text.getD p 0

/-- Overwrite one state's last_exec stamp. -/
def setStamp (m : NFA) (i v : Nat) : NFA :=
  let s2 : State := {m.states.getD i default with last_exec := v}
  {m with states := m.states.set i s2}

/-- The reset loop at the top of NFAEngine::execute: every state's
last_exec := 0. -/
def clearStamps (m : NFA) : NFA :=
  {m with states := m.states.map (fun s => {s with last_exec := 0})}

/-- The inner loop of NFAEngine::step over a matched transition's futures:
insert each destination into next exactly once per step, via the stamp. -/
def pushFutures (counter : Nat) : NFA → List Nat → List Nat → NFA × List Nat
  | m, next, [] => (m, next)
  | m, next, d :: ds =>
      if (m.states.getD d default).last_exec = counter then pushFutures counter m next ds
      else pushFutures counter (setStamp m d counter) (next ++ [d]) ds

/-- One iteration of the for loop inside NFAEngine::step: append the state's
epsilon futures to the current frontier in place, then follow its
transition on the current input byte into the next frontier. -/
def stepIter (text : List Nat) (st : EngineState) (i : Nat) : EngineState :=
  let idx := st.cur.getD i 0
  let s := st.machine.states.getD idx default
  let cur1 := match s.find (-1) with
    | some t => st.cur ++ t.futures
    | none => st.cur
  match s.find (Int.ofNat (byteAt text st.pos)) with
  | some t =>
      let r := pushFutures st.counter st.machine st.next t.futures
      {st with cur := cur1, machine := r.1, next := r.2}
  | none => {st with cur := cur1}

/-- The for loop of NFAEngine::step, iterating index i over the current
frontier while the frontier grows in place; fuel bounds the number of
iterations (the C loop diverges on an epsilon cycle). -/
def stepLoop (text : List Nat) : Nat → EngineState → Nat → Option EngineState
  | 0, st, i => if i < st.cur.length then none else some st
  | f+1, st, i =>
      if i < st.cur.length then stepLoop text f (stepIter text st i) (i+1)
      else some st

/-- NFAEngine::step: increment the step counter, run the frontier loop, and
advance the input pointer unconditionally. -/
def stepF (text : List Nat) (f : Nat) (st : EngineState) : Option EngineState :=
  (stepLoop text f {st with counter := st.counter + 1} 0).map (fun s => {s with pos := s.pos + 1})

/-- NFAEngine::accepting: does the current frontier hold a state with the
ACCEPTING flag. -/
def acceptingB (st : EngineState) : Bool :=
  st.cur.any (fun i => ((st.machine.states.getD i default).flags &&& 1) != 0)

/-- The while loop of NFAEngine::execute: report a match when the current
frontier accepts, report no match when the next frontier is empty,
otherwise swap the frontiers and take a step.  Verdict none = the loop is
still running when the fuel runs out (the C loop can diverge). -/
def loopE (text : List Nat) : Nat → EngineState → Option Bool × EngineState
  | 0, st => (none, st)
  | f+1, st =>
      if acceptingB st then (some true, st)
      else if st.next = [] then (some false, st)
      else
        match stepF text f {st with cur := st.next, next := []} with
        | none => (none, st)
        | some st2 => loopE text f st2

/-- NFAEngine::execute: reset the counter, empty both frontier vectors,
clear every state's stamp, seed the next frontier with the start state and
run the stepping loop. -/
def execute (f : Nat) (m : NFA) (text : List Nat) : Option Bool × EngineState :=
  loopE text f ⟨clearStamps m, 0, [], [m.start_state], 0⟩

/-- Full pipeline up to the NFA: compile the parse of a pattern (the main()
call sequence of regex.cpp).  Patterns whose parse or compilation fails
yield the default (empty) machine. -/
def compiled (pat : List Nat) : NFA := (compile_tree (parseR pat).2).getD default

/-- Child indices referenced by an arena node. -/
def children : Node → List Nat
  | Node.alternation a b => [a, b]
  | Node.concatenation a b => [a, b]
  | Node.repetition a => [a]
  | Node.optionalRepetition a => [a]
  | Node.optional a => [a]
  | Node.atom _ => []

/-- First arena invariant of the spec: every node's children have strictly
smaller indices than the node itself. -/
def childInvB (nodes : List Node) : Bool :=
  (List.range nodes.length).all
    (fun i => (children (nodes.getD i default)).all (fun c => decide (c < i)))

/-- Fuel-bounded set of descendants (the node itself included) of an arena
node, following child indices. -/
def descs (nodes : List Node) : Nat → Nat → List Nat
  | 0, _ => []
  | f+1, i => i :: (children (nodes.getD i default)).flatMap (fun c => descs nodes f c)

/-- Second arena invariant of the spec: unless the arena is empty, the
highest-indexed node is the tree's root, i.e. every other node of the
arena is a descendant of the highest-indexed node. -/
def rootReachB (nodes : List Node) : Bool :=
  nodes.isEmpty ||
    (List.range (nodes.length - 1)).all
      (fun j => (descs nodes nodes.length (nodes.length - 1)).contains j)

/-- Precondition for entering a parser mode: the loop modes carry the local
variable first, which the surrounding function always sets to an index of
an already-built node (nodes.size() - 1 at some earlier time), hence below
the current arena size. -/
def modePre : PMode → Nat → Prop
  | PMode.altLoop first, len => first < len
  | PMode.concatLoop first, len => first < len
  | _, _ => True

/-- The epsilon futures of a state: the destination list of its transition
on the empty symbol, empty when there is none. -/
def epsFutures (m : NFA) (i : Nat) : List Nat :=
  match (m.states.getD i default).find (-1) with
  | some t => t.futures
  | none => []

/-- Pattern a|b as bytes. -/
def patAB : List Nat := [97, 124, 98]

/-- Pattern ^a$ as bytes. -/
def patAnchA : List Nat := [94, 97, 36]

/-- Pattern a as bytes. -/
def patA : List Nat := [97]

/-- Pattern ^a*$ as bytes. -/
def patOptRep : List Nat := [94, 97, 42, 36]

/-- Pattern (a as bytes: unmatched parenthesis. -/
def patOpen : List Nat := [40, 97]

/-- Pattern a** as bytes: chained quantifier. -/
def patStarStar : List Nat := [97, 42, 42]

/-- Pattern . as bytes: a character outside the atom alphabet and the
structural operators. -/
def patDot : List Nat := [46]

/-- Pattern a| as bytes: empty alternation branch. -/
def patAltEmpty : List Nat := [97, 124]

/-- Pattern a$b as bytes: trailing content after the dollar anchor. -/
def patDollar : List Nat := [97, 36, 98]

/-- Pattern a(b as bytes: a pattern on which the parser reports success
while leaving a disconnected arena. -/
def patDisc : List Nat := [97, 40, 98]

/-- The empty pattern as bytes. -/
def patEmpty : List Nat := []

/-- The engine configuration that the simulation of the a|b machine on the
subject c reaches at the top of the while loop after k steps (k at least
one): the scan state 6 is stamped with k, the current frontier is the
epsilon closure {6, 4, 0, 2} computed by the previous step, the next
frontier holds the scan state again, and the input pointer is at offset k
(already past the one-byte subject for k at least one). -/
def abCyc (k : Nat) : EngineState :=
  ⟨setStamp (compiled patAB) 6 k, k, [6, 4, 0, 2], [6], k⟩

/-- C2: parsing the empty pattern succeeds with an empty node arena, but
compile_tree does not special-case the empty tree: it immediately indexes
the arena at nodes.size() - 1 (out of bounds for an empty arena, undefined
behaviour in the C code, modelled as none), so no automaton — in
particular no automaton accepting only the empty string — is produced. -/
theorem c2_empty_tree_not_special_cased :
    (parseR patEmpty).1 = true ∧ (parseR patEmpty).2.nodes = [] ∧
    compile_tree (parseR patEmpty).2 = none := by decide

/-- C5 counterexample: the pattern a$b is not a syntax error; parse
returns success = true, silently truncating the content after the dollar
sign. -/
theorem c5_counterexample : (parseR patDollar).1 = true := by decide

/-- C5 amended: trailing content after the dollar sign is silently
truncated, not a syntax error.  Whenever the parse loop stands on a dollar
sign it immediately returns success, consuming only the dollar and setting
the end-anchored flag, never looking at the remainder of the pattern; in
particular a$b parses with success = true to the end-anchored tree of the
pattern a alone. -/
theorem c5_dollar_truncates :
    (∀ (f : Nat) (st : PState), peek st = 36 →
      buildLoop (f+1) st = (true, {advance st with flags := st.flags ||| 2})) ∧
    parseR patDollar = (true, ⟨2, [Node.atom 97]⟩) := by
  constructor
  · intro f st h
    have h0 : (peek st == 0) = false := by simp [h]
    have h36 : (peek st == 36) = true := by simp [h]
    simp [buildLoop, h0, h36]
  · decide

/-- C5 witness: discharging the hypothesis of the general part of
c5_dollar_truncates at a concrete state standing on a dollar sign. -/
theorem c5_dollar_truncates_witness :
    peek (initP [36]) = 36 ∧
    buildLoop 1 (initP [36]) =
      (true, {advance (initP [36]) with flags := (initP [36]).flags ||| 2}) :=
  ⟨by decide, c5_dollar_truncates.1 0 (initP [36]) (by decide)⟩

/-- C8: parse returns success = false on each malformed class: an unmatched
parenthesis, a chained quantifier, a character outside the atom alphabet
and the structural operators, and an empty alternation branch. -/
theorem c8_malformed_rejected :
    (parseR patOpen).1 = false ∧ (parseR patStarStar).1 = false ∧
    (parseR patDot).1 = false ∧ (parseR patAltEmpty).1 = false := by decide

/-- C7: the pinned end-to-end verdicts hold in the fuel model (each run
terminates within the given fuel): the machine of ^a$ accepts a and
rejects ab, and the machine of the unanchored pattern a accepts xax. -/
theorem c7_pinned_verdicts :
    (execute 12 (compiled patAnchA) [97]).1 = some true ∧
    (execute 12 (compiled patAnchA) [97, 98]).1 = some false ∧
    (execute 20 (compiled patA) [120, 97, 120]).1 = some true := by decide

/-- C6: the engine reads subject bytes past the end-of-input sentinel.
Running the machine of ^a$ on the one-byte subject a terminates with a
match, but the final input offset is 3: the loop performed three steps,
reading offsets 0, 1 and 2, and offset 2 lies beyond the sentinel at
offset 1 (in the C code this is a read past the string buffer), because
step() advances the pointer unconditionally, also on the sentinel step. -/
theorem c6_reads_past_sentinel :
    (execute 12 (compiled patAnchA) [97]).1 = some true ∧
    (execute 12 (compiled patAnchA) [97]).2.pos = 3 ∧
    ([97] : List Nat).length = 1 := by decide

/-- C3 counterexample: in the machine compiled from ^a*$ the
OptionalRepetition fragment has start state 2 (which is also the
automaton's start) and accept state 3, and the child fragment's accept
state 1 carries an epsilon transition to the fragment start 2 only — the
fragment accept 3 is not among its epsilon futures, contradicting the
claimed wiring X.accept to {start, accept}. -/
theorem c3_counterexample :
    (compiled patOptRep).start_state = 2 ∧
    epsFutures (compiled patOptRep) 1 = [2] ∧
    ¬ (3 ∈ epsFutures (compiled patOptRep) 1) := by decide

/-- C4 counterexample: a call to the engine does not leave the compiled
NFA unchanged: running the machine of ^a$ on the subject a mutates the
per-state last_exec stamps stored on the NFA's states. -/
theorem c4_counterexample :
    (execute 12 (compiled patAnchA) [97]).2.machine ≠ compiled patAnchA := by decide

/-- C9 counterexample: parse reports success on the pattern a(b (the
partially consumed failing unit merely ends the concatenation loop), yet
the resulting arena is two disconnected atoms: node 0 is not a descendant
of the highest-indexed node 1, so the highest-indexed node is not the
tree's root although the arena is nonempty. -/
theorem c9_counterexample :
    (parseR patDisc).1 = true ∧
    (parseR patDisc).2.nodes = [Node.atom 97, Node.atom 98] ∧
    rootReachB (parseR patDisc).2.nodes = false := by decide

theorem set_map_getD {α β : Type} (f : α → β) (d : α) :
    ∀ (l : List α) (i : Nat), (l.map f).set i (f (l.getD i d)) = l.map f := by
  intro l
  induction l with
  | nil => intro i; rfl
  | cons x xs ih =>
      intro i
      cases i with
      | zero => rfl
      | succ j => simpa using ih j

theorem clearStamps_setStamp (m : NFA) (i v : Nat) :
    clearStamps (setStamp m i v) = clearStamps m := by
  cases m with
  | mk states start =>
      simp only [clearStamps, setStamp, List.map_set]
      exact congrArg (fun l => NFA.mk l start) (set_map_getD _ default states i)

theorem pushFutures_machine (c : Nat) (ds : List Nat) :
    ∀ (m : NFA) (next : List Nat),
      clearStamps (pushFutures c m next ds).1 = clearStamps m := by
  induction ds with
  | nil => intro m next; rfl
  | cons d ds ih =>
      intro m next
      simp only [pushFutures]
      by_cases h : (m.states.getD d default).last_exec = c
      · simp only [h, if_pos rfl]
        exact ih m next
      · rw [if_neg h, ih, clearStamps_setStamp]

theorem stepIter_machine (text : List Nat) (st : EngineState) (i : Nat) :
    clearStamps (stepIter text st i).machine = clearStamps st.machine := by
  simp only [stepIter]
  split
  · exact pushFutures_machine _ _ _ _
  · rfl

theorem stepLoop_machine (text : List Nat) :
    ∀ (f : Nat) (st : EngineState) (i : Nat) (st2 : EngineState),
      stepLoop text f st i = some st2 →
      clearStamps st2.machine = clearStamps st.machine := by
  intro f
  induction f with
  | zero =>
      intro st i st2 h
      simp only [stepLoop] at h
      split at h
      · exact absurd h (by simp)
      · cases h; rfl
  | succ g ih =>
      intro st i st2 h
      simp only [stepLoop] at h
      split at h
      · rw [ih _ _ _ h, stepIter_machine]
      · cases h; rfl

theorem stepF_machine (text : List Nat) (f : Nat) (st st2 : EngineState)
    (h : stepF text f st = some st2) :
    clearStamps st2.machine = clearStamps st.machine := by
  simp only [stepF, Option.map_eq_some'] at h
  obtain ⟨s, hs, rfl⟩ := h
  have h2 := stepLoop_machine text f {st with counter := st.counter + 1} 0 s hs
  exact h2

theorem loopE_machine (text : List Nat) :
    ∀ (f : Nat) (st : EngineState),
      clearStamps (loopE text f st).2.machine = clearStamps st.machine := by
  intro f
  induction f with
  | zero => intro st; rfl
  | succ g ih =>
      intro st
      simp only [loopE]
      split
      · rfl
      · split
        · rfl
        · split
          · rfl
          · rename_i st2 hst2
            rw [ih st2, stepF_machine text g _ st2 hst2]

theorem clearStamps_idem (m : NFA) : clearStamps (clearStamps m) = clearStamps m := by
  simp only [clearStamps, List.map_map]
  rfl

theorem execute_machine (f : Nat) (m : NFA) (text : List Nat) :
    clearStamps (execute f m text).2.machine = clearStamps m := by
  unfold execute
  rw [loopE_machine]
  exact clearStamps_idem m

theorem execute_congr (f : Nat) (text : List Nat) (m1 m2 : NFA)
    (h : clearStamps m1 = clearStamps m2) :
    execute f m1 text = execute f m2 text := by
  have hs0 := congrArg NFA.start_state h
  have hs : m1.start_state = m2.start_state := hs0
  unfold execute
  rw [h, hs]

theorem execute_after (f0 f : Nat) (m : NFA) (t0 t : List Nat) :
    execute f ((execute f0 m t0).2.machine) t = execute f m t :=
  execute_congr f t _ m (execute_machine f0 m t0)

/-- C10: the engine's verdict is a deterministic function of the compiled
NFA and the text alone: execute first resets the step counter, empties
both frontiers, and clears every state's last_exec stamp, so the whole
run only depends on the stamp-erased machine; consequently a run of
execute on the machine left behind by any earlier run — on any earlier
text — returns exactly the same result as a run on the original machine. -/
theorem c10_execute_reset_deterministic (f0 f : Nat) (m : NFA) (t0 t : List Nat) :
    execute f ((execute f0 m t0).2.machine) t = execute f m t :=
  execute_after f0 f m t0 t

/-- C4 amended: the per-state last-seen-step stamp is owned by the NFA's
states and a matches call mutates it (see the counterexample), so the
compiled NFA is not left unchanged; but because execute clears the
counter and every stamp before simulating, the stamps carry no information
between calls, and two sequential matches calls against the same compiled
NFA and same text — the second running on the machine the first left
behind — always agree.  (Concurrent interference is outside this model.) -/
theorem c4_stamp_on_nfa_but_sequential_calls_agree (f f' : Nat) (m : NFA)
    (text : List Nat) :
    (execute f ((execute f' m text).2.machine) text).1 = (execute f m text).1 :=
  congrArg Prod.fst (execute_after f' f m text text)

theorem findT_symbol : ∀ (ts : List Transition) (sym : Int) (t : Transition),
    findT ts sym = some t → t.symbol = sym := by
  intro ts sym t h
  induction ts with
  | nil => simp [findT] at h
  | cons x xs ih =>
      simp only [findT] at h
      split at h
      · cases h; assumption
      · exact ih h

theorem findT_addF_of_none (ts : List Transition) (sym : Int) (d : Nat)
    (h : findT ts sym = none) :
    findT (addF ts sym d) sym = some ⟨sym, [d]⟩ := by
  induction ts with
  | nil => simp [addF, findT]
  | cons x xs ih =>
      simp only [findT] at h
      split at h
      · exact absurd h (by simp)
      · rename_i hx
        simp only [addF, if_neg hx, findT]
        exact ih h

theorem findT_addF_of_some (ts : List Transition) (sym : Int) (d : Nat) (t : Transition)
    (h : findT ts sym = some t) :
    findT (addF ts sym d) sym = some ⟨sym, t.futures ++ [d]⟩ := by
  induction ts with
  | nil => simp [findT] at h
  | cons x xs ih =>
      simp only [findT] at h
      split at h
      · rename_i hx
        cases h
        simp only [addF, if_pos hx, findT]
        rw [hx]
      · rename_i hx
        simp only [addF, if_neg hx, findT]
        exact ih h

theorem epsFutures_addF (m : NFA) (i : Nat) (d : Nat)
    (h : i < m.states.length) :
    epsFutures (addFutureM m i (-1) d) i = epsFutures m i ++ [d] := by
  simp only [epsFutures, addFutureM, State.find, List.getD_eq_getElem?_getD,
    List.getElem?_set_self h, Option.getD_some]
  cases hf : findT ((m.states[i]?).getD default).transitions (-1) with
  | none =>
      rw [findT_addF_of_none _ _ _ hf]
      simp [hf]
  | some t =>
      rw [findT_addF_of_some _ _ _ _ hf]

theorem epsFutures_addFutureM_ne (m : NFA) (i j : Nat) (sym : Int) (d : Nat)
    (h : i ≠ j) :
    epsFutures (addFutureM m i sym d) j = epsFutures m j := by
  simp only [epsFutures, addFutureM, State.find, List.getD_eq_getElem?_getD,
    List.getElem?_set_ne h]

theorem length_addFutureM (m : NFA) (i : Nat) (sym : Int) (d : Nat) :
    (addFutureM m i sym d).states.length = m.states.length := by
  simp [addFutureM]

theorem epsFutures_append_states (m : NFA) (l : List State) (j : Nat) (s : Nat)
    (h : j < m.states.length) :
    epsFutures ⟨m.states ++ l, s⟩ j = epsFutures m j := by
  simp only [epsFutures, State.find, List.getD_eq_getElem?_getD,
    List.getElem?_append_left h]

/-- C3 amended: for every OptionalRepetition node the compiler emits the
wiring start to {X.start, accept} and X.accept to {start} only: the fresh
fragment start state (index = old state count) gets epsilon edges to the
child's start and to the fresh fragment accept (index = old state count
plus one), while the child's accept state gets a single additional epsilon
edge back to the fragment start — not to the fragment accept, which stays
reachable from X.accept only through the start state's epsilon edge. -/
theorem c3_optrep_wiring (m : NFA) (child : NodeData)
    (h : child.accept_state < m.states.length) :
    (emitOptRep m child).2.start_state = m.states.length ∧
    (emitOptRep m child).2.accept_state = m.states.length + 1 ∧
    epsFutures (emitOptRep m child).1 m.states.length
      = [child.start_state, m.states.length + 1] ∧
    epsFutures (emitOptRep m child).1 child.accept_state
      = epsFutures m child.accept_state ++ [m.states.length] := by
  have hlen : (pushState (pushState m)).states.length = m.states.length + 2 := by
    simp [pushState]
  have hlen1 : (pushState m).states.length = m.states.length + 1 := by
    simp [pushState]
  refine ⟨by simp [emitOptRep], by simp [emitOptRep, pushState], ?_, ?_⟩
  · show epsFutures
      (addFutureM (addFutureM (addFutureM (pushState (pushState m))
        m.states.length (-1) child.start_state)
        m.states.length (-1) ((pushState m).states.length))
        child.accept_state (-1) m.states.length) m.states.length = _
    rw [epsFutures_addFutureM_ne _ _ _ _ _ (Nat.ne_of_lt h)]
    rw [hlen1]
    rw [epsFutures_addF _ _ _ (by rw [length_addFutureM, hlen]; omega)]
    rw [epsFutures_addF _ _ _ (by rw [hlen]; omega)]
    have hbase : epsFutures (pushState (pushState m)) m.states.length = [] := by
      have : (pushState (pushState m)).states = m.states ++ [default, default] := by
        simp [pushState]
      simp only [epsFutures, State.find, List.getD_eq_getElem?_getD, this]
      rw [List.getElem?_append_right (Nat.le_refl _)]
      simp [findT, Inhabited.default]
    rw [hbase]
    rfl
  · show epsFutures
      (addFutureM (addFutureM (addFutureM (pushState (pushState m))
        m.states.length (-1) child.start_state)
        m.states.length (-1) ((pushState m).states.length))
        child.accept_state (-1) m.states.length) child.accept_state = _
    rw [epsFutures_addF _ _ _ (by rw [length_addFutureM, length_addFutureM, hlen]; omega)]
    rw [epsFutures_addFutureM_ne _ _ _ _ _ (Nat.ne_of_gt h)]
    rw [epsFutures_addFutureM_ne _ _ _ _ _ (Nat.ne_of_gt h)]
    have : (pushState (pushState m)).states = m.states ++ [default, default] := by
      simp [pushState]
    have hb := epsFutures_append_states m [default, default] child.accept_state m.start_state h
    rw [show (pushState (pushState m)) = ⟨m.states ++ [default, default], m.start_state⟩ by
      simp [pushState]]
    rw [hb]

/-- C3 witness: the wiring theorem applied to a concrete two-state machine
whose fragment is (start 0, accept 1). -/
theorem c3_optrep_wiring_witness :
    (⟨0, 1⟩ : NodeData).accept_state < (⟨[⟨0, 0, []⟩, ⟨0, 0, []⟩], 0⟩ : NFA).states.length ∧
    ((emitOptRep ⟨[⟨0, 0, []⟩, ⟨0, 0, []⟩], 0⟩ ⟨0, 1⟩).2.start_state = 2 ∧
     (emitOptRep ⟨[⟨0, 0, []⟩, ⟨0, 0, []⟩], 0⟩ ⟨0, 1⟩).2.accept_state = 2 + 1 ∧
     epsFutures (emitOptRep ⟨[⟨0, 0, []⟩, ⟨0, 0, []⟩], 0⟩ ⟨0, 1⟩).1 2 = [0, 2 + 1] ∧
     epsFutures (emitOptRep ⟨[⟨0, 0, []⟩, ⟨0, 0, []⟩], 0⟩ ⟨0, 1⟩).1 1
       = epsFutures ⟨[⟨0, 0, []⟩, ⟨0, 0, []⟩], 0⟩ 1 ++ [2]) :=
  ⟨by decide, c3_optrep_wiring ⟨[⟨0, 0, []⟩, ⟨0, 0, []⟩], 0⟩ ⟨0, 1⟩ (by decide)⟩

theorem lenAB : (compiled patAB).states.length = 8 := by decide

theorem startAB : (compiled patAB).start_state = 6 := by decide

theorem clearAB : clearStamps (compiled patAB) = compiled patAB := by decide

theorem scanFlagsAB : ((compiled patAB).states.getD 6 default).flags = 0 := by decide

theorem find6epsAB :
    findT ((compiled patAB).states.getD 6 default).transitions (-1) = some ⟨-1, [4]⟩ := by
  decide

theorem find6zeroAB :
    findT ((compiled patAB).states.getD 6 default).transitions (Int.ofNat 0)
      = some ⟨0, [6]⟩ := by decide

theorem st4AB : (compiled patAB).states.getD 4 default = ⟨0, 0, [⟨-1, [0, 2]⟩]⟩ := by decide

theorem st0AB : (compiled patAB).states.getD 0 default = ⟨0, 0, [⟨97, [1]⟩]⟩ := by decide

theorem st2AB : (compiled patAB).states.getD 2 default = ⟨0, 0, [⟨98, [3]⟩]⟩ := by decide

theorem getD_stamped_self (m : NFA) (i v : Nat) (h : i < m.states.length) :
    (setStamp m i v).states.getD i default
      = ⟨v, (m.states.getD i default).flags, (m.states.getD i default).transitions⟩ := by
  simp [setStamp, List.getD_eq_getElem?_getD, List.getElem?_set_self h]

theorem getD_stamped_ne (m : NFA) (i j v : Nat) (h : i ≠ j) :
    (setStamp m i v).states.getD j default = m.states.getD j default := by
  simp [setStamp, List.getD_eq_getElem?_getD, List.getElem?_set_ne h]

theorem setStamp_twice (m : NFA) (i a b : Nat) (h : i < m.states.length) :
    setStamp (setStamp m i a) i b = setStamp m i b := by
  simp only [setStamp, List.getD_eq_getElem?_getD, List.getElem?_set_self h,
    Option.getD_some, List.set_set]

theorem find_mk (v fl : Nat) (ts : List Transition) (sym : Int) :
    State.find ⟨v, fl, ts⟩ sym = findT ts sym := rfl

theorem byteC (k : Nat) (hk : 1 ≤ k) : byteAt [99] k = 0 := by
  cases k with
  | zero => omega
  | succ j => simp [byteAt, List.getD]

theorem abIter0 (k : Nat) (hk : 1 ≤ k) :
    stepIter [99] ⟨setStamp (compiled patAB) 6 k, k + 1, [6], [], k⟩ 0
      = ⟨setStamp (compiled patAB) 6 (k + 1), k + 1, [6, 4], [6], k⟩ := by
  have h6 : (6 : Nat) < (compiled patAB).states.length := by rw [lenAB]; omega
  have hne : ¬ (k = k + 1) := by omega
  simp only [stepIter, List.getD_cons_zero, getD_stamped_self _ _ _ h6, find_mk,
    byteC k hk, find6epsAB, find6zeroAB, pushFutures,
    getD_stamped_self _ _ _ h6, if_neg hne, setStamp_twice _ _ _ _ h6]
  rfl

theorem abIter1 (k : Nat) (hk : 1 ≤ k) :
    stepIter [99] ⟨setStamp (compiled patAB) 6 (k + 1), k + 1, [6, 4], [6], k⟩ 1
      = ⟨setStamp (compiled patAB) 6 (k + 1), k + 1, [6, 4, 0, 2], [6], k⟩ := by
  have hne : (6 : Nat) ≠ 4 := by omega
  simp only [stepIter, List.getD_cons_succ, List.getD_cons_zero,
    getD_stamped_ne _ _ _ _ hne, st4AB, find_mk, byteC k hk]
  simp [findT]

theorem abIter2 (k : Nat) (hk : 1 ≤ k) :
    stepIter [99] ⟨setStamp (compiled patAB) 6 (k + 1), k + 1, [6, 4, 0, 2], [6], k⟩ 2
      = ⟨setStamp (compiled patAB) 6 (k + 1), k + 1, [6, 4, 0, 2], [6], k⟩ := by
  have hne : (6 : Nat) ≠ 0 := by omega
  simp only [stepIter, List.getD_cons_succ, List.getD_cons_zero,
    getD_stamped_ne _ _ _ _ hne, st0AB, find_mk, byteC k hk]
  simp [findT]

theorem abIter3 (k : Nat) (hk : 1 ≤ k) :
    stepIter [99] ⟨setStamp (compiled patAB) 6 (k + 1), k + 1, [6, 4, 0, 2], [6], k⟩ 3
      = ⟨setStamp (compiled patAB) 6 (k + 1), k + 1, [6, 4, 0, 2], [6], k⟩ := by
  have hne : (6 : Nat) ≠ 2 := by omega
  simp only [stepIter, List.getD_cons_succ, List.getD_cons_zero,
    getD_stamped_ne _ _ _ _ hne, st2AB, find_mk, byteC k hk]
  simp [findT]

theorem stepLoop_stop (text : List Nat) (f : Nat) (st : EngineState) (i : Nat)
    (h : ¬ (i < st.cur.length)) : stepLoop text f st i = some st := by
  cases f <;> simp [stepLoop, h]

theorem abStepLoop (k : Nat) (hk : 1 ≤ k) :
    ∀ f : Nat,
      stepLoop [99] f ⟨setStamp (compiled patAB) 6 k, k + 1, [6], [], k⟩ 0
        = if 4 ≤ f then
            some ⟨setStamp (compiled patAB) 6 (k + 1), k + 1, [6, 4, 0, 2], [6], k⟩
          else none := by
  intro f
  rcases f with _ | _ | _ | _ | g
  · simp [stepLoop]
  · simp [stepLoop, abIter0 k hk]
  · simp [stepLoop, abIter0 k hk, abIter1 k hk]
  · simp [stepLoop, abIter0 k hk, abIter1 k hk, abIter2 k hk]
  · simp [stepLoop, abIter0 k hk, abIter1 k hk, abIter2 k hk, abIter3 k hk,
      stepLoop_stop, Nat.le_add_left]

theorem abAccept (k : Nat) : acceptingB (abCyc k) = false := by
  have h4 : (6 : Nat) ≠ 4 := by omega
  have h0 : (6 : Nat) ≠ 0 := by omega
  have h2 : (6 : Nat) ≠ 2 := by omega
  have h6 : (6 : Nat) < (compiled patAB).states.length := by rw [lenAB]; omega
  simp only [acceptingB, abCyc, List.any_cons, List.any_nil,
    getD_stamped_self _ _ _ h6, getD_stamped_ne _ _ _ _ h4, getD_stamped_ne _ _ _ _ h0,
    getD_stamped_ne _ _ _ _ h2, scanFlagsAB, st4AB, st0AB, st2AB]
  decide

theorem abLoop_none : ∀ (f k : Nat), 1 ≤ k → (loopE [99] f (abCyc k)).1 = none := by
  intro f
  induction f using Nat.strong_induction_on with
  | _ f ih =>
      intro k hk
      match f with
      | 0 => rfl
      | g + 1 =>
          simp only [loopE, abAccept k, Bool.false_eq_true, if_false]
          have hnext : ¬ ((abCyc k).next = []) := by simp [abCyc]
          rw [if_neg hnext]
          have hswap : {abCyc k with cur := (abCyc k).next, next := ([] : List Nat)}
              = ⟨setStamp (compiled patAB) 6 k, k, [6], [], k⟩ := by
            simp [abCyc]
          rw [hswap]
          have hstep : stepF [99] g ⟨setStamp (compiled patAB) 6 k, k, [6], [], k⟩
              = if 4 ≤ g then some (abCyc (k + 1)) else none := by
            simp only [stepF, abStepLoop k hk g]
            by_cases h4 : 4 ≤ g
            · simp [h4, abCyc]
            · simp [h4]
          rw [hstep]
          by_cases h4 : 4 ≤ g
          · rw [if_pos h4]
            exact ih g (by omega) (k + 1) (by omega)
          · rw [if_neg h4]

theorem abStepLoopFirst (g : Nat) :
    stepLoop [99] g ⟨compiled patAB, 1, [6], [], 0⟩ 0
      = if 4 ≤ g then
          some ⟨setStamp (compiled patAB) 6 1, 1, [6, 4, 0, 2], [6], 0⟩
        else none := by
  have i0 : stepIter [99] ⟨compiled patAB, 1, [6], [], 0⟩ 0
      = ⟨setStamp (compiled patAB) 6 1, 1, [6, 4], [6], 0⟩ := by decide
  have i1 : stepIter [99] ⟨setStamp (compiled patAB) 6 1, 1, [6, 4], [6], 0⟩ 1
      = ⟨setStamp (compiled patAB) 6 1, 1, [6, 4, 0, 2], [6], 0⟩ := by decide
  have i2 : stepIter [99] ⟨setStamp (compiled patAB) 6 1, 1, [6, 4, 0, 2], [6], 0⟩ 2
      = ⟨setStamp (compiled patAB) 6 1, 1, [6, 4, 0, 2], [6], 0⟩ := by decide
  have i3 : stepIter [99] ⟨setStamp (compiled patAB) 6 1, 1, [6, 4, 0, 2], [6], 0⟩ 3
      = ⟨setStamp (compiled patAB) 6 1, 1, [6, 4, 0, 2], [6], 0⟩ := by decide
  rcases g with _ | _ | _ | _ | g
  · simp [stepLoop]
  · simp [stepLoop, i0]
  · simp [stepLoop, i0, i1]
  · simp [stepLoop, i0, i1, i2]
  · simp [stepLoop, i0, i1, i2, i3, stepLoop_stop, Nat.le_add_left]

/-- C1: the claimed totality fails: on the NFA compiled from the pattern
a|b and the subject c the engine does not terminate.  The unanchored scan
state self-loops on every byte value including the sentinel 0, so the
next frontier is never empty and no accepting state is ever reached;
for every fuel bound the while loop of execute is still running (the C
code loops forever, reading ever further past the subject buffer). -/
theorem c1_engine_diverges (f : Nat) : (execute f (compiled patAB) [99]).1 = none := by
  cases f with
  | zero => rfl
  | succ g =>
      unfold execute
      rw [clearAB, startAB]
      simp only [loopE]
      have hacc : acceptingB ⟨compiled patAB, 0, [], [6], 0⟩ = false := by
        simp [acceptingB]
      rw [hacc]
      simp only [Bool.false_eq_true, if_false]
      have hnext : ¬ (([6] : List Nat) = []) := by simp
      rw [if_neg hnext]
      have hstep : stepF [99] g ⟨compiled patAB, 0, [6], [], 0⟩
          = if 4 ≤ g then some (abCyc 1) else none := by
        simp only [stepF, abStepLoopFirst g]
        by_cases h4 : 4 ≤ g
        · simp [h4, abCyc]
        · simp [h4]
      rw [hstep]
      by_cases h4 : 4 ≤ g
      · rw [if_pos h4]
        exact abLoop_none g 1 (Nat.le_refl 1)
      · rw [if_neg h4]

theorem childInvB_append (ns : List Node) (n : Node)
    (h1 : childInvB ns = true) (h2 : ∀ c ∈ children n, c < ns.length) :
    childInvB (ns ++ [n]) = true := by
  have hlen : (ns ++ [n]).length = ns.length + 1 := by simp
  simp only [childInvB, List.all_eq_true] at h1 ⊢
  intro i hi
  rw [List.mem_range, hlen] at hi
  intro c hc
  by_cases hlt : i < ns.length
  · have hg : (ns ++ [n]).getD i default = ns.getD i default := by
      simp [List.getD_eq_getElem?_getD, List.getElem?_append_left hlt]
    rw [hg] at hc
    have h3 := h1 i (by rw [List.mem_range]; exact hlt)
    exact h3 c hc
  · have hieq : i = ns.length := by omega
    subst hieq
    have hg : (ns ++ [n]).getD ns.length default = n := by
      simp [List.getD_eq_getElem?_getD, List.getElem?_append_right (Nat.le_refl _)]
    rw [hg] at hc
    exact decide_eq_true (h2 c hc)

theorem length_pushNode (st : PState) (n : Node) :
    (pushNode st n).nodes.length = st.nodes.length + 1 := by simp [pushNode]

theorem runP_inv : ∀ (f : Nat) (mode : PMode) (st : PState),
    childInvB st.nodes = true → modePre mode st.nodes.length →
    childInvB (runP f mode st).2.nodes = true ∧
    st.nodes.length ≤ (runP f mode st).2.nodes.length ∧
    ((runP f mode st).1 = true → 1 ≤ (runP f mode st).2.nodes.length) := by
  intro f
  induction f with
  | zero =>
      intro mode st h hp
      cases mode <;>
        exact ⟨h, Nat.le_refl _, fun hh => by simp [runP] at hh⟩
  | succ g ih =>
      intro mode st h hp
      cases mode with
      | alternation =>
          simp only [runP]
          obtain ⟨h1, h2, h3⟩ := ih PMode.concat st h trivial
          by_cases hc : (runP g PMode.concat st).1 = true
          · rw [if_pos hc]
            have hlen1 := h3 hc
            obtain ⟨g1, g2, g3⟩ :=
              ih (PMode.altLoop ((runP g PMode.concat st).2.nodes.length - 1))
                (runP g PMode.concat st).2 h1 (by simp only [modePre]; omega)
            exact ⟨g1, by omega, fun _ => by omega⟩
          · rw [if_neg hc]
            exact ⟨h1, h2, fun hh => absurd hh (by simp)⟩
      | altLoop first =>
          simp only [modePre] at hp
          simp only [runP]
          by_cases hpk : (peek st == 124) = true
          · rw [if_pos hpk]
            obtain ⟨h1, h2, h3⟩ := ih PMode.concat (advance st) h trivial
            have hadv : (advance st).nodes.length = st.nodes.length := rfl
            by_cases hc : (runP g PMode.concat (advance st)).1 = true
            · rw [if_pos hc]
              have hlen1 := h3 hc
              have hInv3 : childInvB (pushNode (runP g PMode.concat (advance st)).2
                  (Node.alternation first
                    ((runP g PMode.concat (advance st)).2.nodes.length - 1))).nodes = true := by
                apply childInvB_append _ _ h1
                intro c hcm
                simp only [children, List.mem_cons, List.not_mem_nil, or_false] at hcm
                rcases hcm with rfl | rfl
                · omega
                · omega
              obtain ⟨g1, g2, g3⟩ :=
                ih (PMode.altLoop ((pushNode (runP g PMode.concat (advance st)).2
                    (Node.alternation first
                      ((runP g PMode.concat (advance st)).2.nodes.length - 1))).nodes.length - 1))
                  (pushNode (runP g PMode.concat (advance st)).2
                    (Node.alternation first
                      ((runP g PMode.concat (advance st)).2.nodes.length - 1)))
                  hInv3 (by simp only [modePre, length_pushNode]; omega)
              have hlen3 := length_pushNode (runP g PMode.concat (advance st)).2
                (Node.alternation first
                  ((runP g PMode.concat (advance st)).2.nodes.length - 1))
              exact ⟨g1, by omega, fun _ => by omega⟩
            · rw [if_neg hc]
              exact ⟨h1, h2, fun hh => absurd hh (by simp)⟩
          · rw [if_neg hpk]
            exact ⟨h, Nat.le_refl _, fun _ => by show 1 ≤ st.nodes.length; omega⟩
      | concat =>
          simp only [runP]
          obtain ⟨h1, h2, h3⟩ := ih PMode.quantifier st h trivial
          by_cases hc : (runP g PMode.quantifier st).1 = true
          · rw [if_pos hc]
            have hlen1 := h3 hc
            obtain ⟨g1, g2, g3⟩ :=
              ih (PMode.concatLoop ((runP g PMode.quantifier st).2.nodes.length - 1))
                (runP g PMode.quantifier st).2 h1 (by simp only [modePre]; omega)
            exact ⟨g1, by omega, fun _ => by omega⟩
          · rw [if_neg hc]
            exact ⟨h1, h2, fun hh => absurd hh (by simp)⟩
      | concatLoop first =>
          simp only [modePre] at hp
          simp only [runP]
          obtain ⟨h1, h2, h3⟩ := ih PMode.quantifier st h trivial
          by_cases hc : (runP g PMode.quantifier st).1 = true
          · rw [if_pos hc]
            have hlen1 := h3 hc
            have hInv3 : childInvB (pushNode (runP g PMode.quantifier st).2
                (Node.concatenation first
                  ((runP g PMode.quantifier st).2.nodes.length - 1))).nodes = true := by
              apply childInvB_append _ _ h1
              intro c hcm
              simp only [children, List.mem_cons, List.not_mem_nil, or_false] at hcm
              rcases hcm with rfl | rfl
              · omega
              · omega
            obtain ⟨g1, g2, g3⟩ :=
              ih (PMode.concatLoop ((pushNode (runP g PMode.quantifier st).2
                  (Node.concatenation first
                    ((runP g PMode.quantifier st).2.nodes.length - 1))).nodes.length - 1))
                (pushNode (runP g PMode.quantifier st).2
                  (Node.concatenation first
                    ((runP g PMode.quantifier st).2.nodes.length - 1)))
                hInv3 (by simp only [modePre, length_pushNode]; omega)
            have hlen3 := length_pushNode (runP g PMode.quantifier st).2
              (Node.concatenation first
                ((runP g PMode.quantifier st).2.nodes.length - 1))
            exact ⟨g1, by omega, fun _ => by omega⟩
          · rw [if_neg hc]
            exact ⟨h1, h2, fun _ => by
              show 1 ≤ (runP g PMode.quantifier st).2.nodes.length; omega⟩
      | quantifier =>
          simp only [runP]
          obtain ⟨h1, h2, h3⟩ := ih PMode.unit st h trivial
          by_cases hc : (runP g PMode.unit st).1 = true
          · rw [if_pos hc]
            have hlen1 := h3 hc
            have hadv : (advance (runP g PMode.unit st).2).nodes.length
                = (runP g PMode.unit st).2.nodes.length := rfl
            have hpush : ∀ n : Node,
                (∀ c ∈ children n, c < (runP g PMode.unit st).2.nodes.length) →
                childInvB (pushNode (advance (runP g PMode.unit st).2) n).nodes = true ∧
                st.nodes.length ≤ (pushNode (advance (runP g PMode.unit st).2) n).nodes.length ∧
                (1 ≤ (pushNode (advance (runP g PMode.unit st).2) n).nodes.length) := by
              intro n hn
              refine ⟨childInvB_append _ _ h1 hn, ?_, ?_⟩
              · rw [length_pushNode]; omega
              · rw [length_pushNode]; omega
            by_cases hq1 : (peek (runP g PMode.unit st).2 == 63) = true
            · rw [if_pos hq1]
              have hres := hpush (Node.optional ((runP g PMode.unit st).2.nodes.length - 1))
                (by intro c hcm
                    simp only [children, List.mem_cons, List.not_mem_nil, or_false] at hcm
                    subst hcm; omega)
              exact ⟨hres.1, hres.2.1, fun _ => hres.2.2⟩
            · rw [if_neg hq1]
              by_cases hq2 : (peek (runP g PMode.unit st).2 == 42) = true
              · rw [if_pos hq2]
                have hres := hpush
                  (Node.optionalRepetition ((runP g PMode.unit st).2.nodes.length - 1))
                  (by intro c hcm
                      simp only [children, List.mem_cons, List.not_mem_nil, or_false] at hcm
                      subst hcm; omega)
                exact ⟨hres.1, hres.2.1, fun _ => hres.2.2⟩
              · rw [if_neg hq2]
                by_cases hq3 : (peek (runP g PMode.unit st).2 == 43) = true
                · rw [if_pos hq3]
                  have hres := hpush
                    (Node.repetition ((runP g PMode.unit st).2.nodes.length - 1))
                    (by intro c hcm
                        simp only [children, List.mem_cons, List.not_mem_nil, or_false] at hcm
                        subst hcm; omega)
                  exact ⟨hres.1, hres.2.1, fun _ => hres.2.2⟩
                · rw [if_neg hq3]
                  exact ⟨h1, h2, fun _ => hlen1⟩
          · rw [if_neg hc]
            exact ⟨h1, h2, fun hh => absurd hh (by simp)⟩
      | unit =>
          simp only [runP]
          by_cases ha : isAtomChar (peek st) = true
          · rw [if_pos ha]
            have hadv : (advance st).nodes.length = st.nodes.length := rfl
            refine ⟨childInvB_append _ _ h ?_, ?_, fun _ => ?_⟩
            · intro c hcm
              simp only [children, List.not_mem_nil] at hcm
            · rw [length_pushNode]; omega
            · rw [length_pushNode]; omega
          · rw [if_neg ha]
            by_cases hpk : (peek st == 40) = true
            · rw [if_pos hpk]
              exact ih PMode.group st h trivial
            · rw [if_neg hpk]
              exact ⟨h, Nat.le_refl _, fun hh => absurd hh (by simp)⟩
      | group =>
          simp only [runP]
          by_cases hpk : (peek st == 40) = true
          · rw [if_pos hpk]
            obtain ⟨h1, h2, h3⟩ := ih PMode.alternation (advance st) h trivial
            by_cases hc : (runP g PMode.alternation (advance st)).1 = true
            · rw [if_pos hc]
              by_cases hr : (peek (runP g PMode.alternation (advance st)).2 == 41) = true
              · rw [if_pos hr]
                exact ⟨h1, h2, fun _ => h3 hc⟩
              · rw [if_neg hr]
                exact ⟨h1, h2, fun hh => absurd hh (by simp)⟩
            · rw [if_neg hc]
              exact ⟨h1, h2, fun hh => absurd hh (by simp)⟩
          · rw [if_neg hpk]
            exact ⟨h, Nat.le_refl _, fun hh => absurd hh (by simp)⟩

theorem buildLoop_inv : ∀ (f : Nat) (st : PState), childInvB st.nodes = true →
    childInvB (buildLoop f st).2.nodes = true := by
  intro f
  induction f with
  | zero => intro st h; exact h
  | succ g ih =>
      intro st h
      simp only [buildLoop]
      by_cases h0 : (peek st == 0) = true
      · rw [if_pos h0]; exact h
      · rw [if_neg h0]
        by_cases h36 : (peek st == 36) = true
        · rw [if_pos h36]; exact h
        · rw [if_neg h36]
          have hr := runP_inv g PMode.alternation st h trivial
          by_cases hc : (parse g st).1 = true
          · rw [if_pos hc]
            exact ih (parse g st).2 hr.1
          · rw [if_neg hc]
            exact hr.1

/-- C9 amended: for every pattern on which parse succeeds the first arena
invariant holds — every combinator node's child indices are strictly
smaller than the node's own index (the proof shows the parser preserves
it through every function and every outcome).  The second claimed
invariant, that the highest-indexed node is the root of a nonempty arena,
does not hold in general (see the counterexample: a(b parses successfully
into two disconnected atoms). -/
theorem c9_child_index_invariant (input : List Nat)
    (h : (parseR input).1 = true) :
    childInvB (parseR input).2.nodes = true := by
  have hb : ∀ (st : PState), st.nodes = ([] : List Node) →
      childInvB (build_parse_tree (parseFuel input) st).2.nodes = true := by
    intro st hst
    have hinv : childInvB st.nodes = true := by rw [hst]; rfl
    unfold build_parse_tree
    by_cases hcaret : (peek st == 94) = true
    · rw [if_pos hcaret]
      exact buildLoop_inv _ _ hinv
    · rw [if_neg hcaret]
      exact buildLoop_inv _ _ hinv
  exact hb (initP input) rfl

/-- C9 witness: the child-index invariant at the successfully parsed
pattern a|b. -/
theorem c9_child_index_invariant_witness :
    (parseR patAB).1 = true ∧ childInvB (parseR patAB).2.nodes = true :=
  ⟨by decide, c9_child_index_invariant patAB (by decide)⟩

end Regex

